import Mathlib

/-!
# Verification of the cleaning-and-deduplication core of `clean_compile.py`

Shallow embedding of the pure core of the Reddit data cleaning pipeline:
`clean_text`, `is_valid_post`, `normalize_title`, `process_post`,
`deduplicate_posts` and `calculate_stats`.  Strings are modelled as
`List Char`; the Python regular-expression substitutions are modelled by
single-pass scanners that mirror `re.sub`'s left-to-right, non-overlapping,
greedy matching.  Character classes (`\w`, `\s`, `str.lower`, `str.strip`)
are modelled at ASCII fidelity.
-/

set_option maxHeartbeats 1000000

namespace Scraper

/-- ASCII model of Python's regex `\s` and of the `str.strip` whitespace set. -/
def wsB (c : Char) : Bool :=
  c == ' ' || c == '\t' || c == '\n' || c == '\r' || c == '\x0b' || c == '\x0c'

/-- The characters of the `[ \t]+` pattern in `clean_text`. -/
def spTabB (c : Char) : Bool := c == ' ' || c == '\t'

/-- ASCII model of Python's regex `\w`, i.e. `[a-zA-Z0-9_]`. -/
def isWordChar (c : Char) : Bool := c.isAlphanum || c == '_'

/-- The character class `(?:[a-zA-Z]|[0-9]|[$-_@.&+]|[!*\\(\\),]|(?:%[0-9a-fA-F][0-9a-fA-F]))`
of the two URL patterns in `clean_text`.  The range `$-_` is the byte range
0x24-0x5F, which already contains `@.&+`, `*`, `\`, `(`, `)`, `,` and `%`,
so the class reduces to letters, digits, that byte range, and `!`. -/
def urlChar (c : Char) : Bool :=
  c.isAlpha || c.isDigit || (decide ('$' ≤ c) && decide (c ≤ '_')) || c == '!'

/-- Python `str.strip()` (ASCII whitespace). -/
def pstrip (s : List Char) : List Char :=
  ((s.dropWhile wsB).reverse.dropWhile wsB).reverse

/-- Does the second list start with the first one?  (Python `str.startswith`.) -/
def startsList : List Char → List Char → Bool
  | [], _ => true
  | _ :: _, [] => false
  | a :: as, b :: bs => a == b && startsList as bs

/-- Python's substring test `needle in hay`. -/
def isSubstr (n : List Char) : List Char → Bool
  | [] => n.isEmpty
  | b :: bs => startsList n (b :: bs) || isSubstr n bs

/-! ## The two URL-removal substitutions of `clean_text`

`re.sub(r'http[s]?://CLASS+', '', text)` and `re.sub(r'www\.CLASS+', '', text)`.
A match is the fixed prefix (`http://`, `https://` or `www.`) followed by a
maximal, nonempty run of `urlChar`s; the whole match is deleted.  The scanner
state records whether we are scanning normally, deleting the `k + 1` remaining
characters of a matched fixed prefix, or deleting the character-class run. -/

inductive UrlSt | norm | skip (k : Nat) | run

/-- Minimal-match lookahead for `http[s]?://CLASS+`; returns the length of the
fixed prefix (7 for `http://`, 8 for `https://`). -/
def httpStart : List Char → Option Nat
  | 'h' :: 't' :: 't' :: 'p' :: 's' :: ':' :: '/' :: '/' :: c :: _ =>
      if urlChar c then some 8 else none
  | 'h' :: 't' :: 't' :: 'p' :: ':' :: '/' :: '/' :: c :: _ =>
      if urlChar c then some 7 else none
  | _ => none

def httpGo : UrlSt → List Char → List Char
  | _, [] => []
  | .norm, c :: cs =>
      match httpStart (c :: cs) with
      | some 8 => httpGo (.skip 6) cs
      | some _ => httpGo (.skip 5) cs
      | none => c :: httpGo .norm cs
  | .skip (k + 1), _ :: cs => httpGo (.skip k) cs
  | .skip 0, _ :: cs => httpGo .run cs
  | .run, c :: cs => if urlChar c then httpGo .run cs else c :: httpGo .norm cs

def removeHttpUrls (s : List Char) : List Char := httpGo .norm s

/-- Minimal-match lookahead for `www\.CLASS+`. -/
def wwwStart : List Char → Bool
  | 'w' :: 'w' :: 'w' :: '.' :: c :: _ => urlChar c
  | _ => false

def wwwGo : UrlSt → List Char → List Char
  | _, [] => []
  | .norm, c :: cs =>
      if wwwStart (c :: cs) then wwwGo (.skip 2) cs else c :: wwwGo .norm cs
  | .skip (k + 1), _ :: cs => wwwGo (.skip k) cs
  | .skip 0, _ :: cs => wwwGo .run cs
  | .run, c :: cs => if urlChar c then wwwGo .run cs else c :: wwwGo .norm cs

def removeWwwUrls (s : List Char) : List Char := wwwGo .norm s

/-! ## The markdown-emphasis substitutions of `clean_text`

`re.sub(r'\*\*([^*]+)\*\*', r'\1', text)` (bold), `re.sub(r'\*([^*]+)\*', r'\1', text)`
(italic) and `re.sub(r'~~([^~]+)~~', r'\1', text)` (strikethrough).  A match is
delimiter(s), a nonempty maximal run free of the marker character, then the
closing delimiter(s); the replacement is the inner run. -/

/-- Lookahead for the double-marker patterns (bold, strikethrough) with
marker character `m`. -/
def pairLook (m : Char) : List Char → Bool
  | a :: b :: cs =>
      a == m && b == m &&
      (let run := cs.takeWhile (fun c => c != m)
       !run.isEmpty &&
         (match cs.dropWhile (fun c => c != m) with
          | d :: e :: _ => d == m && e == m
          | _ => false))
  | _ => false

inductive EmSt | norm | opn | inner | cls

def pairGo (m : Char) : EmSt → List Char → List Char
  | _, [] => []
  | .norm, c :: cs => if pairLook m (c :: cs) then pairGo m .opn cs else c :: pairGo m .norm cs
  | .opn, _ :: cs => pairGo m .inner cs
  | .inner, c :: cs => if c == m then pairGo m .cls cs else c :: pairGo m .inner cs
  | .cls, _ :: cs => pairGo m .norm cs

def subBold (s : List Char) : List Char := pairGo '*' .norm s

def subStrike (s : List Char) : List Char := pairGo '~' .norm s

/-- Lookahead for the single-marker italic pattern `\*([^*]+)\*`. -/
def singLook : List Char → Bool
  | a :: cs =>
      a == '*' &&
      (let run := cs.takeWhile (fun c => c != '*')
       !run.isEmpty &&
         (match cs.dropWhile (fun c => c != '*') with
          | d :: _ => d == '*'
          | _ => false))
  | _ => false

inductive ItSt | norm | inner

def itGo : ItSt → List Char → List Char
  | _, [] => []
  | .norm, c :: cs => if singLook (c :: cs) then itGo .inner cs else c :: itGo .norm cs
  | .inner, c :: cs => if c == '*' then itGo .norm cs else c :: itGo .inner cs

def subItalic (s : List Char) : List Char := itGo .norm s

/-! ## The whitespace substitutions of `clean_text`

`re.sub(r'\n\s*\n', '\n', text)`: a match starts at a newline and, greedily,
ends just after the last newline of the maximal whitespace run that follows;
the match is replaced by a single newline.  Character by character this means:
a `'\n'` is deleted when another `'\n'` follows within the adjacent whitespace
run; other whitespace is deleted when a `'\n'` occurred earlier in its run
(`sawNl`) and another `'\n'` follows in the run; everything else is kept.

`re.sub(r'[ \t]+', ' ', text)`: each maximal run of spaces/tabs becomes one
space (emitted at the last character of the run). -/

/-- Does a `'\n'` occur in the whitespace run starting here? -/
def hasNlAhead (cs : List Char) : Bool := (cs.takeWhile wsB).contains '\n'

def subNlGo (sawNl : Bool) : List Char → List Char
  | [] => []
  | c :: cs =>
      if c == '\n' then
        if hasNlAhead cs then subNlGo true cs
        else '\n' :: subNlGo true cs
      else if wsB c then
        if sawNl && hasNlAhead cs then subNlGo sawNl cs
        else c :: subNlGo sawNl cs
      else c :: subNlGo false cs

def subNl (s : List Char) : List Char := subNlGo false s

def subSpaces : List Char → List Char
  | [] => []
  | c :: cs =>
      if spTabB c then
        match cs with
        | d :: _ => if spTabB d then subSpaces cs else ' ' :: subSpaces cs
        | [] => ' ' :: subSpaces cs
      else c :: subSpaces cs

/-- `clean_text` from `clean_compile.py`: remove `http(s)` URLs, remove `www.`
URLs, unwrap bold, italic and strikethrough emphasis, collapse blank lines,
collapse space/tab runs, and strip.  (The `if not text` guard is the identity
on actual strings reaching this pipeline; absent/non-string input is handled
by `clean_textOpt`.) -/
def clean_text (s : List Char) : List Char :=
  pstrip (subSpaces (subNl (subStrike (subItalic (subBold
    (removeWwwUrls (removeHttpUrls s)))))))

/-- `clean_text` on an optional field: `None`/absent input yields `""`
(the `if not text or not isinstance(text, str)` guard). -/
def clean_textOpt : Option (List Char) → List Char
  | none => []
  | some t => clean_text t

/-! ## Validation, processing, deduplication, statistics -/

/-- `MIN_BODY_LEN` from the configuration block. -/
def MIN_BODY_LEN : Nat := 5

/-- `DELETED_MARKERS` from the configuration block. -/
def DELETED_MARKERS : List (List Char) :=
  ["[deleted]".toList, "[removed]".toList, "[removed by reddit]".toList,
    "[deleted by user]".toList, "**removed**".toList, "**deleted**".toList]

/-- `is_valid_post` from `clean_compile.py`, on a record with string `title`
and `body` fields: strip both, reject when the lowercased (stripped) body
contains a placeholder marker, when the stripped body is shorter than
`min_length`, or when the stripped title is empty. -/
def is_valid_post (title body : List Char) (min_length : Nat) : Bool :=
  let b := pstrip body
  let t := pstrip title
  if DELETED_MARKERS.any (fun m => isSubstr m (b.map Char.toLower)) then false
  else if b.length < min_length then false
  else if t.isEmpty then false
  else true

structure RawPost where
  subreddit : Option (List Char)
  title : Option (List Char)
  body : Option (List Char)
deriving DecidableEq

structure CleanPost where
  subreddit : List Char
  title : List Char
  body : List Char
deriving DecidableEq

/-- `process_post` from `clean_compile.py`: default the group to `"unknown"`,
clean `title` and `body`, then validate the cleaned record (with the default
minimum length); `none` is the rejection signal. -/
def process_post (post : RawPost) : Option CleanPost :=
  let cleaned_post : CleanPost :=
    { subreddit := post.subreddit.getD "unknown".toList
      title := clean_textOpt post.title
      body := clean_textOpt post.body }
  if is_valid_post cleaned_post.title cleaned_post.body MIN_BODY_LEN then
    some cleaned_post
  else none

/-- The `\s+`-to-one-space collapse inside `normalize_title` (the space is
emitted at the last character of each whitespace run). -/
def collapseWs : List Char → List Char
  | [] => []
  | c :: cs =>
      if wsB c then
        match cs with
        | d :: _ => if wsB d then collapseWs cs else ' ' :: collapseWs cs
        | [] => ' ' :: collapseWs cs
      else c :: collapseWs cs

/-- `normalize_title` from `clean_compile.py`: lowercase, delete `[^\w\s]`,
collapse whitespace runs to one space, strip. -/
def normalize_title (title : List Char) : List Char :=
  let normalized := title.map Char.toLower
  let normalized := normalized.filter (fun c => isWordChar c || wsB c)
  pstrip (collapseWs normalized)

def dedupGo (seen : List (List Char)) : List CleanPost → List CleanPost × Nat
  | [] => ([], 0)
  | post :: ps =>
      let normalized := normalize_title post.title
      if seen.contains normalized then
        let r := dedupGo seen ps
        (r.1, r.2 + 1)
      else
        let r := dedupGo (normalized :: seen) ps
        (post :: r.1, r.2)

/-- `deduplicate_posts` from `clean_compile.py`: one left-to-right pass with a
set of already-seen normalized titles; returns the kept records and the number
of dropped duplicates. -/
def deduplicate_posts (posts : List CleanPost) : List CleanPost × Nat :=
  dedupGo [] posts

/-- Reference form of the dedup contract: keep the first record of each
fingerprint, dropping every later record with the same fingerprint. -/
def dedupKeepFirst (l : List CleanPost) : List CleanPost :=
  match l with
  | [] => []
  | p :: ps =>
      p :: dedupKeepFirst
        (ps.filter (fun q => normalize_title q.title != normalize_title p.title))
termination_by l.length
decreasing_by
  simp only [List.length_cons]
  exact Nat.lt_succ_of_le (List.length_filter_le _ _)

structure GroupStats where
  count : Nat
  total_length : Nat
  avg_length : ℚ
deriving DecidableEq

structure Stats where
  total_posts : Nat
  avg_body_length : ℚ
  subreddit_stats : List (List Char × GroupStats)
deriving DecidableEq

/-- One `subreddit_stats[sub]['count'] += 1; ... ['total_length'] += len(body)`
step on the (insertion-ordered) group table; an absent key is created first
(`defaultdict`). -/
def updGroup (sub : List Char) (len : Nat) :
    List (List Char × GroupStats) → List (List Char × GroupStats)
  | [] => [(sub, ⟨1, len, 0⟩)]
  | (s, g) :: rest =>
      if s = sub then (s, ⟨g.count + 1, g.total_length + len, g.avg_length⟩) :: rest
      else (s, g) :: updGroup sub len rest

/-- `calculate_stats` from `clean_compile.py`: `{}` (here `none`) on an empty
input; otherwise the total count, the mean body length, and the per-subreddit
counts, total lengths and mean lengths (the `avg_length` key is filled in by
the final loop; the table rows carry `0` until then). -/
def calculate_stats (posts : List CleanPost) : Option Stats :=
  match posts with
  | [] => none
  | _ :: _ =>
      let total_posts := posts.length
      let total_body_length := (posts.map (fun p => p.body.length)).sum
      let avg_body_length : ℚ := (total_body_length : ℚ) / (total_posts : ℚ)
      let grouped := posts.foldl (fun acc p => updGroup p.subreddit p.body.length acc) []
      let grouped := grouped.map fun e =>
        (e.1, ⟨e.2.count, e.2.total_length, (e.2.total_length : ℚ) / (e.2.count : ℚ)⟩)
      some ⟨total_posts, avg_body_length, grouped⟩

/-! ## Dynamically-typed view of `is_valid_post` (for records whose fields may
hold non-string values, as Python dictionaries can). -/

inductive PyVal
  | str (s : List Char)
  | int (n : Int)
  | noneV
deriving DecidableEq

inductive PyErr | attributeError
deriving DecidableEq

structure DynPost where
  title : Option PyVal
  body : Option PyVal
deriving DecidableEq

/-- Python `v.strip()`: defined on strings, an `AttributeError` otherwise. -/
def pyStrip : PyVal → Except PyErr (List Char)
  | .str s => .ok (pstrip s)
  | _ => .error .attributeError

/-- An optional field value that is either absent or a string. -/
def strOrAbsent : Option PyVal → Bool
  | none => true
  | some (.str _) => true
  | some _ => false

/-- `is_valid_post` on an arbitrary record mapping: `post.get(key, '')`
defaults an absent field to `""`, and `.strip()` is then called on whatever
value is present. -/
def is_valid_post_dyn (post : DynPost) (min_length : Nat) : Except PyErr Bool := do
  let b ← pyStrip (post.body.getD (.str []))
  let t ← pyStrip (post.title.getD (.str []))
  if DELETED_MARKERS.any (fun m => isSubstr m (b.map Char.toLower)) then pure false
  else if b.length < min_length then pure false
  else if t.isEmpty then pure false
  else pure true

/-! ## Auxiliary predicates used in the analysis of `clean_text` -/

/-- Is the head of the list a whitespace character? -/
def headWs : List Char → Bool
  | [] => false
  | c :: _ => wsB c

/-- Is the head of the list a space or tab? -/
def headSp : List Char → Bool
  | [] => false
  | c :: _ => spTabB c

/-- No two adjacent space/tab characters (so the `[ \t]+` substitution,
which also replaces lone spaces by spaces, is the identity when additionally
no tab occurs). -/
def noAdjSp : List Char → Prop
  | [] => True
  | [_] => True
  | c :: d :: r => (spTabB c = false ∨ spTabB d = false) ∧ noAdjSp (d :: r)

/-- No occurrence of the `\n\s*\n` pattern: after any newline, the adjacent
whitespace run contains no further newline. -/
def noNlPat : List Char → Prop
  | [] => True
  | c :: cs => (c = '\n' → hasNlAhead cs = false) ∧ noNlPat cs

/-! ## Lemmas about deduplication -/

theorem dedupGo_cons (seen : List (List Char)) (p : CleanPost) (ps : List CleanPost) :
    dedupGo seen (p :: ps)
      = if seen.contains (normalize_title p.title) then
          ((dedupGo seen ps).1, (dedupGo seen ps).2 + 1)
        else
          (p :: (dedupGo (normalize_title p.title :: seen) ps).1,
            (dedupGo (normalize_title p.title :: seen) ps).2) := rfl

theorem dedupGo_cons_pos (seen : List (List Char)) (p : CleanPost) (ps : List CleanPost)
    (h : seen.contains (normalize_title p.title) = true) :
    dedupGo seen (p :: ps) = ((dedupGo seen ps).1, (dedupGo seen ps).2 + 1) := by
  rw [dedupGo_cons, if_pos h]

theorem dedupGo_cons_neg (seen : List (List Char)) (p : CleanPost) (ps : List CleanPost)
    (h : seen.contains (normalize_title p.title) = false) :
    dedupGo seen (p :: ps)
      = (p :: (dedupGo (normalize_title p.title :: seen) ps).1,
          (dedupGo (normalize_title p.title :: seen) ps).2) := by
  rw [dedupGo_cons, if_neg]
  rw [h]
  exact Bool.false_ne_true

theorem dedupKeepFirst_cons (p : CleanPost) (ps : List CleanPost) :
    dedupKeepFirst (p :: ps)
      = p :: dedupKeepFirst
          (ps.filter fun q => normalize_title q.title != normalize_title p.title) := by
  rw [dedupKeepFirst]

theorem dedupGo_count (ps : List CleanPost) : ∀ seen,
    (dedupGo seen ps).1.length + (dedupGo seen ps).2 = ps.length := by
  induction ps with
  | nil => intro seen; simp [dedupGo]
  | cons p ps ih =>
    intro seen
    by_cases h : seen.contains (normalize_title p.title) = true
    · have := ih seen
      rw [dedupGo_cons_pos seen p ps h]
      simp only [List.length_cons]
      omega
    · have := ih (normalize_title p.title :: seen)
      rw [dedupGo_cons_neg seen p ps (by simpa using h)]
      simp only [List.length_cons]
      omega

theorem dedupGo_spec (ps : List CleanPost) : ∀ seen,
    (dedupGo seen ps).1
      = dedupKeepFirst (ps.filter fun q => !(seen.contains (normalize_title q.title))) := by
  induction ps with
  | nil => intro seen; simp [dedupGo, dedupKeepFirst]
  | cons p ps ih =>
    intro seen
    by_cases h : seen.contains (normalize_title p.title) = true
    · rw [dedupGo_cons_pos seen p ps h, ih seen, List.filter_cons]
      have hc : (!(seen.contains (normalize_title p.title))) = false := by rw [h]; rfl
      rw [hc]
      rfl
    · have h' : seen.contains (normalize_title p.title) = false := by simpa using h
      rw [dedupGo_cons_neg seen p ps h', ih]
      have harg :
          (ps.filter fun q => !((normalize_title p.title :: seen).contains
              (normalize_title q.title)))
            = ((ps.filter fun q => !(seen.contains (normalize_title q.title))).filter
                fun q => normalize_title q.title != normalize_title p.title) := by
        rw [List.filter_filter]
        refine List.filter_congr fun q _ => ?_
        simp only [List.contains_cons, Bool.not_or, bne]
      rw [harg, ← dedupKeepFirst_cons, List.filter_cons]
      have hc : (!(seen.contains (normalize_title p.title))) = true := by rw [h']; rfl
      rw [hc]
      rfl

theorem dedupGo_sublist (ps : List CleanPost) : ∀ seen,
    List.Sublist (dedupGo seen ps).1 ps := by
  induction ps with
  | nil => intro seen; simp [dedupGo]
  | cons p ps ih =>
    intro seen
    by_cases h : seen.contains (normalize_title p.title) = true
    · rw [dedupGo_cons_pos seen p ps h]
      exact (ih seen).cons p
    · rw [dedupGo_cons_neg seen p ps (by simpa using h)]
      exact (ih _).cons₂ p

theorem dedupGo_fp_fresh (ps : List CleanPost) : ∀ seen,
    ((dedupGo seen ps).1.map fun p => normalize_title p.title).Nodup ∧
      ∀ q ∈ (dedupGo seen ps).1, seen.contains (normalize_title q.title) = false := by
  induction ps with
  | nil => intro seen; simp [dedupGo]
  | cons p ps ih =>
    intro seen
    by_cases h : seen.contains (normalize_title p.title) = true
    · rw [dedupGo_cons_pos seen p ps h]
      exact ih seen
    · have h' : seen.contains (normalize_title p.title) = false := by simpa using h
      obtain ⟨ihn, ihf⟩ := ih (normalize_title p.title :: seen)
      rw [dedupGo_cons_neg seen p ps h']
      simp only [List.map_cons, List.nodup_cons]
      refine ⟨⟨?_, ihn⟩, ?_⟩
      · intro hmem
        obtain ⟨q, hq, hfq⟩ := List.mem_map.mp hmem
        have := ihf q hq
        rw [List.contains_cons, hfq] at this
        simp at this
      · intro q hq
        rcases List.mem_cons.mp hq with rfl | hq'
        · exact h'
        · have := ihf q hq'
          rw [List.contains_cons] at this
          exact (Bool.or_eq_false_iff.mp this).2

/-! ## Lemmas about `normalize_title` on marker-free titles -/

theorem collapseWs_one (c : Char) : collapseWs [c] = if wsB c then [' '] else [c] := rfl

theorem collapseWs_cons₂ (c d : Char) (ds : List Char) :
    collapseWs (c :: d :: ds)
      = if wsB c then
          (if wsB d then collapseWs (d :: ds) else ' ' :: collapseWs (d :: ds))
        else c :: collapseWs (d :: ds) := rfl

theorem toLower_eq_self_of_not_word (c : Char) (h : isWordChar c = false) :
    c.toLower = c := by
  have hnot : ¬(c.toNat ≥ 65 ∧ c.toNat ≤ 90) := by
    intro hcond
    have hup : c.isUpper = true := by
      simp only [Char.isUpper, Bool.and_eq_true, decide_eq_true_eq, ge_iff_le]
      rw [UInt32.le_def, UInt32.le_def]
      simp only [BitVec.le_def]
      refine ⟨?_, ?_⟩
      · show (65 : UInt32).toBitVec.toNat ≤ _
        simpa [Char.toNat] using hcond.1
      · show _ ≤ (90 : UInt32).toBitVec.toNat
        simpa [Char.toNat] using hcond.2
    have hw : isWordChar c = true := by
      simp [isWordChar, Char.isAlphanum, Char.isAlpha, hup]
    rw [hw] at h
    cases h
  show (if c.toNat ≥ 65 ∧ c.toNat ≤ 90 then Char.ofNat (c.toNat + 32) else c) = c
  rw [if_neg hnot]

theorem mem_collapseWs {a : Char} : ∀ u : List Char, a ∈ collapseWs u → a = ' ' ∨ a ∈ u
  | [] => by intro h; simp [collapseWs] at h
  | [c] => by
    intro h
    rw [collapseWs_one] at h
    by_cases hc : wsB c = true
    · rw [if_pos hc] at h
      simp only [List.mem_singleton] at h
      exact Or.inl h
    · rw [if_neg hc] at h
      simp only [List.mem_singleton] at h
      simp [h]
  | c :: d :: ds => by
    intro h
    rw [collapseWs_cons₂] at h
    by_cases hc : wsB c = true
    · rw [if_pos hc] at h
      by_cases hd : wsB d = true
      · rw [if_pos hd] at h
        rcases mem_collapseWs (d :: ds) h with h' | h'
        · exact Or.inl h'
        · exact Or.inr (List.mem_cons_of_mem c h')
      · rw [if_neg hd] at h
        rcases List.mem_cons.mp h with rfl | h'
        · exact Or.inl rfl
        · rcases mem_collapseWs (d :: ds) h' with h'' | h''
          · exact Or.inl h''
          · exact Or.inr (List.mem_cons_of_mem c h'')
    · rw [if_neg hc] at h
      rcases List.mem_cons.mp h with rfl | h'
      · exact Or.inr (List.mem_cons_self a _)
      · rcases mem_collapseWs (d :: ds) h' with h'' | h''
        · exact Or.inl h''
        · exact Or.inr (List.mem_cons_of_mem c h'')

theorem pstrip_eq_nil_of_all_ws (u : List Char) (h : ∀ c ∈ u, wsB c = true) :
    pstrip u = [] := by
  have hd : u.dropWhile wsB = [] := List.dropWhile_eq_nil_iff.mpr h
  simp [pstrip, hd]

theorem normalize_title_eq_nil (t : List Char) (h : ∀ c ∈ t, isWordChar c = false) :
    normalize_title t = [] := by
  simp only [normalize_title]
  apply pstrip_eq_nil_of_all_ws
  intro a ha
  rcases mem_collapseWs _ ha with rfl | ha'
  · rfl
  · obtain ⟨hmem, hpred⟩ := List.mem_filter.mp ha'
    obtain ⟨c₀, hc₀, rfl⟩ := List.mem_map.mp hmem
    have hlow : isWordChar (Char.toLower c₀) = false := by
      rw [toLower_eq_self_of_not_word c₀ (h c₀ hc₀)]
      exact h c₀ hc₀
    rcases Bool.or_eq_true_iff.mp hpred with h1 | h2
    · rw [hlow] at h1
      exact absurd h1 Bool.false_ne_true
    · exact h2

theorem countP_le_one_of_map_nodup {α β : Type} [BEq β] [LawfulBEq β] (f : α → β) (v : β) :
    ∀ l : List α, (l.map f).Nodup → l.countP (fun x => f x == v) ≤ 1
  | [], _ => by simp
  | a :: l, h => by
    rw [List.map_cons, List.nodup_cons] at h
    rw [List.countP_cons]
    by_cases hv : (f a == v) = true
    · have hfa : f a = v := eq_of_beq hv
      have hz : l.countP (fun x => f x == v) = 0 := by
        rw [List.countP_eq_zero]
        intro b hb hbv
        have hfb : f b = v := eq_of_beq hbv
        exact h.1 (hfa.trans hfb.symm ▸ List.mem_map_of_mem f hb)
      rw [hz, hv]
      simp
    · have hv' : (f a == v) = false := by
        revert hv; cases (f a == v) <;> simp
      rw [hv']
      simp only [Bool.false_eq_true, if_false, Nat.add_zero]
      exact countP_le_one_of_map_nodup f v l h.2

/-! ## Lemmas about `calculate_stats` -/

theorem updGroup_count_sum (sub : List Char) (len : Nat)
    (gs : List (List Char × GroupStats)) :
    ((updGroup sub len gs).map fun e => e.2.count).sum
      = ((gs.map fun e => e.2.count).sum) + 1 := by
  induction gs with
  | nil => simp [updGroup]
  | cons e rest ih =>
    obtain ⟨s, g⟩ := e
    by_cases h : s = sub
    · simp [updGroup, h]
      omega
    · simp [updGroup, h, ih]
      omega

theorem updGroup_len_sum (sub : List Char) (len : Nat)
    (gs : List (List Char × GroupStats)) :
    ((updGroup sub len gs).map fun e => e.2.total_length).sum
      = ((gs.map fun e => e.2.total_length).sum) + len := by
  induction gs with
  | nil => simp [updGroup]
  | cons e rest ih =>
    obtain ⟨s, g⟩ := e
    by_cases h : s = sub
    · simp [updGroup, h]
      omega
    · simp [updGroup, h, ih]
      omega

theorem updGroup_count_pos (sub : List Char) (len : Nat) :
    ∀ gs : List (List Char × GroupStats), (∀ e ∈ gs, 0 < e.2.count) →
      ∀ e ∈ updGroup sub len gs, 0 < e.2.count := by
  intro gs
  induction gs with
  | nil =>
    intro _ e he
    simp only [updGroup, List.mem_singleton] at he
    subst he
    exact Nat.one_pos
  | cons g rest ih =>
    obtain ⟨s, gg⟩ := g
    intro h e he
    by_cases hs : s = sub
    · rw [updGroup, if_pos hs] at he
      rcases List.mem_cons.mp he with rfl | he'
      · exact Nat.succ_pos _
      · exact h e (List.mem_cons_of_mem _ he')
    · rw [updGroup, if_neg hs] at he
      rcases List.mem_cons.mp he with rfl | he'
      · exact h _ (List.mem_cons_self _ _)
      · exact ih (fun x hx => h x (List.mem_cons_of_mem _ hx)) e he'

theorem foldl_upd_sums (posts : List CleanPost) :
    ∀ acc : List (List Char × GroupStats),
      (((posts.foldl (fun acc p => updGroup p.subreddit p.body.length acc) acc).map
          fun e => e.2.count).sum
        = ((acc.map fun e => e.2.count).sum) + posts.length) ∧
      (((posts.foldl (fun acc p => updGroup p.subreddit p.body.length acc) acc).map
          fun e => e.2.total_length).sum
        = ((acc.map fun e => e.2.total_length).sum)
            + (posts.map fun p => p.body.length).sum) := by
  induction posts with
  | nil => intro acc; simp
  | cons p ps ih =>
    intro acc
    rw [List.foldl_cons]
    obtain ⟨ih1, ih2⟩ := ih (updGroup p.subreddit p.body.length acc)
    refine ⟨?_, ?_⟩
    · rw [ih1, updGroup_count_sum]
      simp only [List.length_cons]
      omega
    · rw [ih2, updGroup_len_sum]
      simp only [List.map_cons, List.sum_cons]
      omega

theorem foldl_upd_count_pos (posts : List CleanPost) :
    ∀ acc : List (List Char × GroupStats), (∀ e ∈ acc, 0 < e.2.count) →
      ∀ e ∈ posts.foldl (fun acc p => updGroup p.subreddit p.body.length acc) acc,
        0 < e.2.count := by
  induction posts with
  | nil => intro acc hacc; exact hacc
  | cons p ps ih =>
    intro acc hacc
    rw [List.foldl_cons]
    exact ih _ (updGroup_count_pos _ _ _ hacc)

theorem calculate_stats_cons (p : CleanPost) (ps : List CleanPost) :
    calculate_stats (p :: ps)
      = some ⟨(p :: ps).length,
          ((((p :: ps).map fun q => q.body.length).sum : ℚ) / ((p :: ps).length : ℚ)),
          (((p :: ps).foldl (fun acc q => updGroup q.subreddit q.body.length acc) []).map
            fun e => (e.1, (⟨e.2.count, e.2.total_length,
              ((e.2.total_length : ℚ) / (e.2.count : ℚ))⟩ : GroupStats)))⟩ := rfl

theorem calculate_stats_eq (p : CleanPost) (ps : List CleanPost) :
    ∃ s, calculate_stats (p :: ps) = some s ∧
      s.total_posts = (p :: ps).length ∧
      ((s.subreddit_stats.map fun e => e.2.count).sum = (p :: ps).length) ∧
      ((s.subreddit_stats.map fun e => e.2.total_length).sum
        = ((p :: ps).map fun q => q.body.length).sum) ∧
      (∀ e ∈ s.subreddit_stats, 0 < e.2.count) := by
  refine ⟨_, calculate_stats_cons p ps, rfl, ?_, ?_, ?_⟩
  · rw [List.map_map]
    have h1 := (foldl_upd_sums (p :: ps) []).1
    simp only [List.map_nil, List.sum_nil, Nat.zero_add] at h1
    exact h1
  · rw [List.map_map]
    have h2 := (foldl_upd_sums (p :: ps) []).2
    simp only [List.map_nil, List.sum_nil, Nat.zero_add] at h2
    exact h2
  · intro e he
    obtain ⟨e₀, he₀, rfl⟩ := List.mem_map.mp he
    exact foldl_upd_count_pos (p :: ps) [] (by simp) e₀ he₀

/-! ## Lemmas about substring search and the validator -/

theorem startsList_iff (n : List Char) : ∀ h : List Char,
    startsList n h = true ↔ ∃ t, h = n ++ t := by
  induction n with
  | nil =>
    intro h
    simp only [startsList, List.nil_append]
    exact ⟨fun _ => ⟨h, rfl⟩, fun _ => by trivial⟩
  | cons a as ih =>
    intro h
    cases h with
    | nil =>
      simp only [startsList]
      constructor
      · intro hf; cases hf
      · rintro ⟨t, ht⟩; cases ht
    | cons b bs =>
      rw [startsList, Bool.and_eq_true]
      constructor
      · rintro ⟨h1, h2⟩
        obtain ⟨t, rfl⟩ := (ih bs).mp h2
        have hab : a = b := eq_of_beq h1
        exact ⟨t, by rw [hab]; rfl⟩
      · rintro ⟨t, ht⟩
        injection ht with h1 h2
        refine ⟨?_, (ih bs).mpr ⟨t, h2⟩⟩
        rw [h1]
        exact beq_self_eq_true _

theorem isSubstr_iff (n : List Char) : ∀ h : List Char,
    isSubstr n h = true ↔ ∃ u v, h = u ++ n ++ v := by
  intro h
  induction h with
  | nil =>
    rw [isSubstr, List.isEmpty_iff]
    constructor
    · intro hn; exact ⟨[], [], by simp [hn]⟩
    · rintro ⟨u, v, huv⟩
      have h1 := (List.append_eq_nil.mp huv.symm).1
      exact (List.append_eq_nil.mp h1).2
  | cons b bs ih =>
    rw [isSubstr, Bool.or_eq_true_iff, startsList_iff, ih]
    constructor
    · rintro (⟨t, ht⟩ | ⟨u, v, rfl⟩)
      · exact ⟨[], t, by simpa using ht⟩
      · exact ⟨b :: u, v, rfl⟩
    · rintro ⟨u, v, huv⟩
      cases u with
      | nil => exact Or.inl ⟨v, by simpa using huv⟩
      | cons x u' =>
        injection huv with h1 h2
        exact Or.inr ⟨u', v, h2⟩

theorem is_valid_post_eq_true_iff (title body : List Char) (min_length : Nat) :
    is_valid_post title body min_length = true ↔
      ((∀ m ∈ DELETED_MARKERS, ¬ ∃ u v, (pstrip body).map Char.toLower = u ++ m ++ v) ∧
        min_length ≤ (pstrip body).length ∧ pstrip title ≠ []) := by
  simp only [is_valid_post]
  split_ifs with h1 h2 h3
  · simp only [Bool.false_eq_true, false_iff]
    rintro ⟨r1, -, -⟩
    obtain ⟨m, hm, hsub⟩ := List.any_eq_true.mp h1
    exact r1 m hm ((isSubstr_iff m _).mp hsub)
  · simp only [Bool.false_eq_true, false_iff]
    rintro ⟨-, r2, -⟩
    omega
  · simp only [Bool.false_eq_true, false_iff]
    rintro ⟨-, -, r3⟩
    exact r3 (List.isEmpty_iff.mp h3)
  · simp only [true_iff]
    refine ⟨?_, by omega, fun hnil => h3 (List.isEmpty_iff.mpr hnil)⟩
    intro m hm hex
    exact h1 (List.any_eq_true.mpr ⟨m, hm, (isSubstr_iff m _).mpr hex⟩)

theorem is_valid_post_dyn_str (ts bs : List Char) (min_length : Nat) (post : DynPost)
    (hts : post.title.getD (.str []) = .str ts)
    (hbs : post.body.getD (.str []) = .str bs) :
    is_valid_post_dyn post min_length = .ok (is_valid_post ts bs min_length) := by
  rw [is_valid_post_dyn, hbs, hts]
  rw [is_valid_post]
  show (if DELETED_MARKERS.any (fun m => isSubstr m ((pstrip bs).map Char.toLower)) then
      (pure false : Except PyErr Bool)
    else if (pstrip bs).length < min_length then pure false
    else if (pstrip ts).isEmpty then pure false
    else pure true) = _
  split_ifs <;> rfl

theorem is_valid_post_dyn_ok (post : DynPost) (min_length : Nat)
    (ht : strOrAbsent post.title = true) (hb : strOrAbsent post.body = true) :
    ∃ b, is_valid_post_dyn post min_length = .ok b := by
  obtain ⟨bs, hbs⟩ : ∃ s, post.body.getD (.str []) = .str s := by
    cases hpb : post.body with
    | none => exact ⟨[], rfl⟩
    | some v =>
      cases v with
      | str s => exact ⟨s, rfl⟩
      | int n => rw [hpb] at hb; cases hb
      | noneV => rw [hpb] at hb; cases hb
  obtain ⟨ts, hts⟩ : ∃ s, post.title.getD (.str []) = .str s := by
    cases hpt : post.title with
    | none => exact ⟨[], rfl⟩
    | some v =>
      cases v with
      | str s => exact ⟨s, rfl⟩
      | int n => rw [hpt] at ht; cases ht
      | noneV => rw [hpt] at ht; cases ht
  exact ⟨_, is_valid_post_dyn_str ts bs min_length post hts hbs⟩

/-! ## Unfolding lemmas for the scanners -/

theorem subSpaces_cons (c : Char) (cs : List Char) :
    subSpaces (c :: cs)
      = if spTabB c then
          (if headSp cs then subSpaces cs else ' ' :: subSpaces cs)
        else c :: subSpaces cs := by
  cases cs <;> rfl

theorem subNlGo_cons (st : Bool) (c : Char) (cs : List Char) :
    subNlGo st (c :: cs)
      = if c == '\n' then
          (if hasNlAhead cs then subNlGo true cs else '\n' :: subNlGo true cs)
        else if wsB c then
          (if st && hasNlAhead cs then subNlGo st cs else c :: subNlGo st cs)
        else c :: subNlGo false cs := rfl

theorem subNlGo_nl_cons (st : Bool) (cs : List Char) :
    subNlGo st ('\n' :: cs)
      = if hasNlAhead cs then subNlGo true cs else '\n' :: subNlGo true cs := by
  rw [subNlGo_cons, if_pos (by decide)]

theorem beq_nl_false_of_not_ws {c : Char} (h : wsB c = false) : (c == '\n') = false := by
  cases hc : c == '\n'
  · rfl
  · have : c = '\n' := eq_of_beq hc
    subst this
    cases h

theorem subNlGo_not_ws_cons (st : Bool) {c : Char} (cs : List Char) (h : wsB c = false) :
    subNlGo st (c :: cs) = c :: subNlGo false cs := by
  rw [subNlGo_cons, if_neg (by rw [beq_nl_false_of_not_ws h]; exact Bool.false_ne_true),
    if_neg (by rw [h]; exact Bool.false_ne_true)]

theorem subNlGo_ws_nonl_cons (st : Bool) {c : Char} (cs : List Char)
    (hw : wsB c = true) (hc : (c == '\n') = false) :
    subNlGo st (c :: cs)
      = if st && hasNlAhead cs then subNlGo st cs else c :: subNlGo st cs := by
  rw [subNlGo_cons, if_neg (by rw [hc]; exact Bool.false_ne_true), if_pos hw]

/-! ## The URL and emphasis scanners are the identity on texts without their
trigger characters -/

theorem httpStart_none (x : List Char) (h : ':' ∉ x) : httpStart x = none := by
  unfold httpStart
  split
  · exact absurd (by simp) h
  · exact absurd (by simp) h
  · rfl

theorem httpGo_norm_id (x : List Char) (h : ':' ∉ x) : httpGo UrlSt.norm x = x := by
  induction x with
  | nil => rfl
  | cons c cs ih =>
    show (match httpStart (c :: cs) with
          | some 8 => httpGo (.skip 6) cs
          | some _ => httpGo (.skip 5) cs
          | none => c :: httpGo .norm cs) = c :: cs
    rw [httpStart_none _ h]
    exact congrArg (c :: ·) (ih fun hm => h (List.mem_cons_of_mem _ hm))

theorem wwwStart_false (x : List Char) (h : '.' ∉ x) : wwwStart x = false := by
  unfold wwwStart
  split
  · exact absurd (by simp) h
  · rfl

theorem wwwGo_norm_id (x : List Char) (h : '.' ∉ x) : wwwGo UrlSt.norm x = x := by
  induction x with
  | nil => rfl
  | cons c cs ih =>
    show (if wwwStart (c :: cs) then wwwGo (.skip 2) cs else c :: wwwGo .norm cs) = c :: cs
    rw [if_neg (by rw [wwwStart_false _ h]; exact Bool.false_ne_true)]
    exact congrArg (c :: ·) (ih fun hm => h (List.mem_cons_of_mem _ hm))

theorem pairLook_false (m c : Char) (cs : List Char) (h : (c == m) = false) :
    pairLook m (c :: cs) = false := by
  cases cs <;> simp [pairLook, h]

theorem pairGo_norm_id (m : Char) (x : List Char) (h : m ∉ x) : pairGo m EmSt.norm x = x := by
  induction x with
  | nil => rfl
  | cons c cs ih =>
    have hc : (c == m) = false :=
      beq_eq_false_iff_ne.mpr fun e => h (e ▸ List.mem_cons_self c cs)
    show (if pairLook m (c :: cs) then pairGo m .opn cs else c :: pairGo m .norm cs) = c :: cs
    rw [if_neg (by rw [pairLook_false m c cs hc]; exact Bool.false_ne_true)]
    exact congrArg (c :: ·) (ih fun hm => h (List.mem_cons_of_mem _ hm))

theorem singLook_false (c : Char) (cs : List Char) (h : (c == '*') = false) :
    singLook (c :: cs) = false := by
  simp [singLook, h]

theorem itGo_norm_id (x : List Char) (h : '*' ∉ x) : itGo ItSt.norm x = x := by
  induction x with
  | nil => rfl
  | cons c cs ih =>
    have hc : (c == '*') = false :=
      beq_eq_false_iff_ne.mpr fun e => h (e ▸ List.mem_cons_self c cs)
    show (if singLook (c :: cs) then itGo .inner cs else c :: itGo .norm cs) = c :: cs
    rw [if_neg (by rw [singLook_false c cs hc]; exact Bool.false_ne_true)]
    exact congrArg (c :: ·) (ih fun hm => h (List.mem_cons_of_mem _ hm))

/-! ## Membership lemmas for the whitespace scanners -/

theorem mem_subNlGo {a : Char} : ∀ (x : List Char) (st : Bool),
    a ∈ subNlGo st x → a ∈ x ∨ a = '\n' := by
  intro x
  induction x with
  | nil => intro st hmem; cases hmem
  | cons c cs ih =>
    intro st hmem
    rw [subNlGo_cons] at hmem
    split_ifs at hmem with h1 h2 h3 h4
    · rcases ih true hmem with h' | h'
      · exact Or.inl (List.mem_cons_of_mem _ h')
      · exact Or.inr h'
    · rcases List.mem_cons.mp hmem with rfl | h'
      · exact Or.inr rfl
      · rcases ih true h' with h'' | h''
        · exact Or.inl (List.mem_cons_of_mem _ h'')
        · exact Or.inr h''
    · rcases ih st hmem with h' | h'
      · exact Or.inl (List.mem_cons_of_mem _ h')
      · exact Or.inr h'
    · rcases List.mem_cons.mp hmem with rfl | h'
      · exact Or.inl (List.mem_cons_self _ _)
      · rcases ih st h' with h'' | h''
        · exact Or.inl (List.mem_cons_of_mem _ h'')
        · exact Or.inr h''
    · rcases List.mem_cons.mp hmem with rfl | h'
      · exact Or.inl (List.mem_cons_self _ _)
      · rcases ih false h' with h'' | h''
        · exact Or.inl (List.mem_cons_of_mem _ h'')
        · exact Or.inr h''

theorem mem_subSpaces {a : Char} : ∀ x : List Char,
    a ∈ subSpaces x → a ∈ x ∨ a = ' ' := by
  intro x
  induction x with
  | nil => intro hmem; cases hmem
  | cons c cs ih =>
    intro hmem
    rw [subSpaces_cons] at hmem
    split_ifs at hmem with h1 h2
    · rcases ih hmem with h' | h'
      · exact Or.inl (List.mem_cons_of_mem _ h')
      · exact Or.inr h'
    · rcases List.mem_cons.mp hmem with rfl | h'
      · exact Or.inr rfl
      · rcases ih h' with h'' | h''
        · exact Or.inl (List.mem_cons_of_mem _ h'')
        · exact Or.inr h''
    · rcases List.mem_cons.mp hmem with rfl | h'
      · exact Or.inl (List.mem_cons_self _ _)
      · rcases ih h' with h'' | h''
        · exact Or.inl (List.mem_cons_of_mem _ h'')
        · exact Or.inr h''

theorem mem_pstrip {a : Char} (x : List Char) (h : a ∈ pstrip x) : a ∈ x := by
  rw [pstrip, List.mem_reverse] at h
  have h' := List.Sublist.mem h (List.dropWhile_sublist wsB)
  rw [List.mem_reverse] at h'
  exact List.Sublist.mem h' (List.dropWhile_sublist wsB)

/-! ## `pstrip` as a prefix of `dropWhile`, and idempotence of `pstrip` -/

theorem rev_dropWhile_append (p : Char → Bool) (t : List Char) :
    t = (t.reverse.dropWhile p).reverse ++ (t.reverse.takeWhile p).reverse := by
  conv_lhs => rw [← List.reverse_reverse t, ← List.takeWhile_append_dropWhile p t.reverse]
  rw [List.reverse_append]

theorem pstrip_append (x : List Char) : ∃ z, x.dropWhile wsB = pstrip x ++ z :=
  ⟨((x.dropWhile wsB).reverse.takeWhile wsB).reverse,
    rev_dropWhile_append wsB (x.dropWhile wsB)⟩

theorem headWs_dropWhile (l : List Char) : headWs (l.dropWhile wsB) = false := by
  induction l with
  | nil => rfl
  | cons c cs ih =>
    rw [List.dropWhile_cons]
    split_ifs with h
    · exact ih
    · show wsB c = false
      revert h
      cases wsB c <;> simp

theorem dropWhile_eq_self_of_headWs (l : List Char) (h : headWs l = false) :
    l.dropWhile wsB = l := by
  cases l with
  | nil => rfl
  | cons c cs =>
    rw [List.dropWhile_cons, if_neg]
    rw [show headWs (c :: cs) = wsB c from rfl] at h
    rw [h]
    exact Bool.false_ne_true

theorem headWs_pstrip (x : List Char) : headWs (pstrip x) = false := by
  obtain ⟨z, hz⟩ := pstrip_append x
  have hd := headWs_dropWhile x
  rw [hz] at hd
  cases hp : pstrip x with
  | nil => rfl
  | cons c r =>
    rw [hp] at hd
    exact hd

theorem headWs_pstrip_reverse (x : List Char) : headWs (pstrip x).reverse = false := by
  rw [pstrip, List.reverse_reverse]
  exact headWs_dropWhile _

theorem pstrip_idem (x : List Char) : pstrip (pstrip x) = pstrip x := by
  show (((pstrip x).dropWhile wsB).reverse.dropWhile wsB).reverse = pstrip x
  rw [dropWhile_eq_self_of_headWs _ (headWs_pstrip x),
    dropWhile_eq_self_of_headWs _ (headWs_pstrip_reverse x), List.reverse_reverse]

/-! ## `takeWhile` helpers -/

theorem mem_takeWhile_ws {a : Char} : ∀ l : List Char, a ∈ l.takeWhile wsB → wsB a = true := by
  intro l
  induction l with
  | nil => intro h; exact absurd h (by simp)
  | cons c cs ih =>
    intro h
    rw [List.takeWhile_cons] at h
    by_cases hc : wsB c = true
    · rw [if_pos hc] at h
      rcases List.mem_cons.mp h with rfl | h'
      · exact hc
      · exact ih h'
    · rw [if_neg hc] at h
      exact absurd h (by simp)

theorem mem_takeWhile_mono {a : Char} : ∀ y z : List Char,
    a ∈ y.takeWhile wsB → a ∈ (y ++ z).takeWhile wsB := by
  intro y z
  induction y with
  | nil => intro h; exact absurd h (by simp)
  | cons c y' ih =>
    intro h
    rw [List.takeWhile_cons] at h
    by_cases hc : wsB c = true
    · rw [if_pos hc] at h
      rw [List.cons_append, List.takeWhile_cons, if_pos hc]
      rcases List.mem_cons.mp h with rfl | h'
      · exact List.mem_cons_self _ _
      · exact List.mem_cons_of_mem _ (ih h')
    · rw [if_neg hc] at h
      exact absurd h (by simp)

theorem takeWhile_all_append : ∀ w v : List Char, (∀ c ∈ w, wsB c = true) →
    headWs v = false → (w ++ v).takeWhile wsB = w := by
  intro w
  induction w with
  | nil =>
    intro v _ hv
    rw [List.nil_append]
    cases v with
    | nil => rfl
    | cons d ds =>
      rw [List.takeWhile_cons, if_neg]
      rw [show headWs (d :: ds) = wsB d from rfl] at hv
      rw [hv]
      exact Bool.false_ne_true
  | cons c w' ih =>
    intro v hw hv
    rw [List.cons_append, List.takeWhile_cons, if_pos (hw c (List.mem_cons_self c w'))]
    rw [ih v (fun d hd => hw d (List.mem_cons_of_mem _ hd)) hv]

theorem hasNlAhead_false_iff (cs : List Char) :
    hasNlAhead cs = false ↔ '\n' ∉ cs.takeWhile wsB := by
  constructor
  · intro h hm
    have he : (cs.takeWhile wsB).contains '\n' = true := List.elem_iff.mpr hm
    rw [hasNlAhead, he] at h
    exact absurd h (by simp)
  · intro h
    rw [hasNlAhead]
    by_contra hb
    have hc : (cs.takeWhile wsB).contains '\n' = true := by
      revert hb; cases (cs.takeWhile wsB).contains '\n' <;> simp
    exact h (List.elem_iff.mp hc)

/-! ## The blank-line substitution leaves no `\n\s*\n` pattern behind -/

theorem subNlGo_pass : ∀ w : List Char, (∀ c ∈ w, wsB c = true) → '\n' ∉ w →
    ∀ (v : List Char) (st : Bool), headWs v = false →
      subNlGo st (w ++ v) = w ++ subNlGo st v := by
  intro w
  induction w with
  | nil => intro _ _ v st _; rfl
  | cons c w' ih =>
    intro hw hnl v st hv
    have hcw : wsB c = true := hw c (List.mem_cons_self c w')
    have hcnl : (c == '\n') = false :=
      beq_eq_false_iff_ne.mpr fun e => hnl (e ▸ List.mem_cons_self c w')
    rw [List.cons_append, subNlGo_ws_nonl_cons st _ hcw hcnl]
    have hahead : hasNlAhead (w' ++ v) = false := by
      rw [hasNlAhead_false_iff, takeWhile_all_append w' v
        (fun d hd => hw d (List.mem_cons_of_mem _ hd)) hv]
      exact fun hm => hnl (List.mem_cons_of_mem _ hm)
    rw [hahead, Bool.and_false, if_neg Bool.false_ne_true]
    rw [ih (fun d hd => hw d (List.mem_cons_of_mem _ hd))
      (fun hm => hnl (List.mem_cons_of_mem _ hm)) v st hv]
    rfl

theorem headWs_subNlGo (v : List Char) (st : Bool) (hv : headWs v = false) :
    headWs (subNlGo st v) = false := by
  cases v with
  | nil => rfl
  | cons d ds =>
    have hd : wsB d = false := hv
    rw [subNlGo_not_ws_cons st ds hd]
    exact hd

theorem hasNlAhead_subNlGo (cs : List Char) (st : Bool) (h : hasNlAhead cs = false) :
    hasNlAhead (subNlGo st cs) = false := by
  have hw : ∀ c ∈ cs.takeWhile wsB, wsB c = true := fun c hc => mem_takeWhile_ws _ hc
  have hnl : '\n' ∉ cs.takeWhile wsB := (hasNlAhead_false_iff cs).mp h
  have hv : headWs (cs.dropWhile wsB) = false := headWs_dropWhile cs
  have hval : subNlGo st cs = cs.takeWhile wsB ++ subNlGo st (cs.dropWhile wsB) := by
    conv_lhs => rw [← List.takeWhile_append_dropWhile wsB cs]
    exact subNlGo_pass _ hw hnl _ st hv
  rw [hasNlAhead_false_iff, hval,
    takeWhile_all_append _ _ hw (headWs_subNlGo _ st hv)]
  exact hnl

theorem noNlPat_subNlGo : ∀ (x : List Char) (st : Bool), noNlPat (subNlGo st x) := by
  intro x
  induction x with
  | nil => intro st; exact trivial
  | cons c cs ih =>
    intro st
    by_cases hcnl : c = '\n'
    · subst hcnl
      by_cases ha : hasNlAhead cs = true
      · rw [subNlGo_nl_cons, if_pos ha]
        exact ih true
      · have ha' : hasNlAhead cs = false := by revert ha; cases hasNlAhead cs <;> simp
        rw [subNlGo_nl_cons, if_neg (by rw [ha']; exact Bool.false_ne_true)]
        exact ⟨fun _ => hasNlAhead_subNlGo cs true ha', ih true⟩
    · by_cases hws : wsB c = true
      · have hcb : (c == '\n') = false := beq_eq_false_iff_ne.mpr hcnl
        by_cases hdrop : (st && hasNlAhead cs) = true
        · rw [subNlGo_ws_nonl_cons st cs hws hcb, if_pos hdrop]
          exact ih st
        · rw [subNlGo_ws_nonl_cons st cs hws hcb, if_neg hdrop]
          exact ⟨fun e => absurd e hcnl, ih st⟩
      · have hws' : wsB c = false := by revert hws; cases wsB c <;> simp
        rw [subNlGo_not_ws_cons st cs hws']
        exact ⟨fun e => absurd e hcnl, ih false⟩

theorem subNlGo_id : ∀ (x : List Char) (st : Bool), noNlPat x →
    (st = true → hasNlAhead x = false) → subNlGo st x = x := by
  intro x
  induction x with
  | nil => intro st _ _; rfl
  | cons c cs ih =>
    intro st hpat hside
    have h1 : c = '\n' → hasNlAhead cs = false := hpat.1
    have h2 : noNlPat cs := hpat.2
    by_cases hcnl : c = '\n'
    · subst hcnl
      have ha := h1 rfl
      rw [subNlGo_nl_cons, if_neg (by rw [ha]; exact Bool.false_ne_true)]
      rw [ih true h2 (fun _ => ha)]
    · by_cases hws : wsB c = true
      · have hcb : (c == '\n') = false := beq_eq_false_iff_ne.mpr hcnl
        have hcs : st = true → hasNlAhead cs = false := by
          intro hst
          have hto := hside hst
          rw [hasNlAhead_false_iff] at hto ⊢
          intro hm
          exact hto (by rw [List.takeWhile_cons, if_pos hws]; exact List.mem_cons_of_mem _ hm)
        have hdrop : (st && hasNlAhead cs) = false := by
          cases hst : st
          · rfl
          · rw [hcs hst]; rfl
        rw [subNlGo_ws_nonl_cons st cs hws hcb,
          if_neg (by rw [hdrop]; exact Bool.false_ne_true)]
        rw [ih st h2 hcs]
      · have hws' : wsB c = false := by revert hws; cases wsB c <;> simp
        rw [subNlGo_not_ws_cons st cs hws']
        rw [ih false h2 (fun hf => (Bool.false_ne_true hf).elim)]

/-! ## The space/tab substitution preserves the no-blank-line invariant and
establishes the no-adjacent-space/tab invariant -/

theorem takeWhile_subSpaces_nl : ∀ z : List Char,
    '\n' ∈ (subSpaces z).takeWhile wsB → '\n' ∈ z.takeWhile wsB := by
  intro z
  induction z with
  | nil => intro h; exact absurd h (by simp [subSpaces])
  | cons c cs ih =>
    intro h
    rw [subSpaces_cons] at h
    by_cases hc : spTabB c = true
    · have hwsc : wsB c = true := by
        simp only [spTabB, Bool.or_eq_true, beq_iff_eq] at hc
        rcases hc with rfl | rfl <;> decide
      rw [if_pos hc] at h
      rw [List.takeWhile_cons, if_pos hwsc]
      by_cases hd : headSp cs = true
      · rw [if_pos hd] at h
        exact List.mem_cons_of_mem _ (ih h)
      · rw [if_neg hd] at h
        rw [List.takeWhile_cons, if_pos (by decide : wsB ' ' = true)] at h
        rcases List.mem_cons.mp h with he | h'
        · exact absurd he (by decide)
        · exact List.mem_cons_of_mem _ (ih h')
    · rw [if_neg hc] at h
      rw [List.takeWhile_cons] at h
      by_cases hwsc : wsB c = true
      · rw [if_pos hwsc] at h
        rw [List.takeWhile_cons, if_pos hwsc]
        rcases List.mem_cons.mp h with he | h'
        · exact he ▸ List.mem_cons_self _ _
        · exact List.mem_cons_of_mem _ (ih h')
      · rw [if_neg hwsc] at h
        exact absurd h (by simp)

theorem noNlPat_subSpaces : ∀ z : List Char, noNlPat z → noNlPat (subSpaces z) := by
  intro z
  induction z with
  | nil => intro _; exact trivial
  | cons c cs ih =>
    intro h
    have h1 : c = '\n' → hasNlAhead cs = false := h.1
    have h2 := ih h.2
    rw [subSpaces_cons]
    by_cases hc : spTabB c = true
    · rw [if_pos hc]
      by_cases hd : headSp cs = true
      · rw [if_pos hd]; exact h2
      · rw [if_neg hd]
        exact ⟨fun e => absurd e (by decide), h2⟩
    · rw [if_neg hc]
      refine ⟨fun e => ?_, h2⟩
      have ha := h1 e
      rw [hasNlAhead_false_iff] at ha ⊢
      exact fun hm => ha (takeWhile_subSpaces_nl cs hm)

theorem noNlPat_dropWhile : ∀ l : List Char, noNlPat l → noNlPat (l.dropWhile wsB) := by
  intro l
  induction l with
  | nil => intro h; exact h
  | cons c cs ih =>
    intro h
    rw [List.dropWhile_cons]
    split_ifs
    · exact ih h.2
    · exact h

theorem noNlPat_append_left : ∀ y z : List Char, noNlPat (y ++ z) → noNlPat y := by
  intro y z
  induction y with
  | nil => intro _; exact trivial
  | cons c y' ih =>
    intro h
    refine ⟨fun e => ?_, ih h.2⟩
    have h1 := h.1 e
    rw [hasNlAhead_false_iff] at h1 ⊢
    exact fun hm => h1 (mem_takeWhile_mono _ _ hm)

theorem noNlPat_pstrip (x : List Char) (h : noNlPat x) : noNlPat (pstrip x) := by
  obtain ⟨z, hz⟩ := pstrip_append x
  have h1 := noNlPat_dropWhile x h
  rw [hz] at h1
  exact noNlPat_append_left _ _ h1

theorem noAdjSp_cons (c : Char) (l : List Char) (hl : noAdjSp l)
    (hh : spTabB c = false ∨ headSp l = false) : noAdjSp (c :: l) := by
  cases l with
  | nil => exact trivial
  | cons d ds => exact ⟨hh, hl⟩

theorem noAdjSp_tail (c : Char) (l : List Char) (h : noAdjSp (c :: l)) : noAdjSp l := by
  cases l with
  | nil => exact trivial
  | cons d ds => exact h.2

theorem headSp_subSpaces (cs : List Char) (h : headSp cs = false) :
    headSp (subSpaces cs) = false := by
  cases cs with
  | nil => rfl
  | cons d ds =>
    have hd : spTabB d = false := h
    rw [subSpaces_cons, if_neg (by rw [hd]; exact Bool.false_ne_true)]
    exact hd

theorem noAdjSp_subSpaces : ∀ z : List Char, noAdjSp (subSpaces z) := by
  intro z
  induction z with
  | nil => exact trivial
  | cons c cs ih =>
    rw [subSpaces_cons]
    by_cases hc : spTabB c = true
    · rw [if_pos hc]
      by_cases hd : headSp cs = true
      · rw [if_pos hd]; exact ih
      · rw [if_neg hd]
        have hd' : headSp cs = false := by revert hd; cases headSp cs <;> simp
        exact noAdjSp_cons _ _ ih (Or.inr (headSp_subSpaces cs hd'))
    · rw [if_neg hc]
      have hc' : spTabB c = false := by revert hc; cases spTabB c <;> simp
      exact noAdjSp_cons _ _ ih (Or.inl hc')

theorem noTab_subSpaces : ∀ z : List Char, '\t' ∉ subSpaces z := by
  intro z
  induction z with
  | nil => intro h; exact absurd h (by simp [subSpaces])
  | cons c cs ih =>
    intro hmem
    rw [subSpaces_cons] at hmem
    split_ifs at hmem with h1 h2
    · exact ih hmem
    · rcases List.mem_cons.mp hmem with he | h'
      · exact absurd he (by decide)
      · exact ih h'
    · rcases List.mem_cons.mp hmem with he | h'
      · rw [← he] at h1
        exact h1 (by decide)
      · exact ih h'

theorem subSpaces_id : ∀ x : List Char, '\t' ∉ x → noAdjSp x → subSpaces x = x := by
  intro x
  induction x with
  | nil => intro _ _; rfl
  | cons c cs ih =>
    intro ht hadj
    rw [subSpaces_cons]
    by_cases hc : spTabB c = true
    · have hsp : c = ' ' := by
        simp only [spTabB, Bool.or_eq_true, beq_iff_eq] at hc
        rcases hc with rfl | rfl
        · rfl
        · exact absurd (List.mem_cons_self _ _) ht
      have hhead : headSp cs = false := by
        cases cs with
        | nil => rfl
        | cons d ds =>
          rcases hadj.1 with h | h
          · rw [h] at hc; exact absurd hc (by simp)
          · exact h
      rw [if_pos hc, if_neg (by rw [hhead]; exact Bool.false_ne_true), hsp]
      congr 1
      exact ih (fun hm => ht (List.mem_cons_of_mem _ hm)) (noAdjSp_tail _ _ hadj)
    · rw [if_neg hc]
      congr 1
      exact ih (fun hm => ht (List.mem_cons_of_mem _ hm)) (noAdjSp_tail _ _ hadj)

theorem noAdjSp_append_left : ∀ y z : List Char, noAdjSp (y ++ z) → noAdjSp y := by
  intro y z
  induction y with
  | nil => intro _; exact trivial
  | cons c y' ih =>
    intro h
    cases y' with
    | nil => exact trivial
    | cons d r => exact ⟨h.1, ih h.2⟩

theorem noAdjSp_dropWhile : ∀ l : List Char, noAdjSp l → noAdjSp (l.dropWhile wsB) := by
  intro l
  induction l with
  | nil => intro h; exact h
  | cons c cs ih =>
    intro h
    rw [List.dropWhile_cons]
    split_ifs
    · exact ih (noAdjSp_tail _ _ h)
    · exact h

theorem noAdjSp_pstrip (x : List Char) (h : noAdjSp x) : noAdjSp (pstrip x) := by
  obtain ⟨z, hz⟩ := pstrip_append x
  have h1 := noAdjSp_dropWhile x h
  rw [hz] at h1
  exact noAdjSp_append_left _ _ h1

/-! ## Idempotence of `clean_text` away from its trigger characters -/

theorem clean_text_restricted_eq (s : List Char)
    (hstar : '*' ∉ s) (htil : '~' ∉ s) (hcol : ':' ∉ s) (hdot : '.' ∉ s) :
    clean_text s = pstrip (subSpaces (subNl s)) := by
  simp only [clean_text]
  rw [show removeHttpUrls s = s from httpGo_norm_id s hcol]
  rw [show removeWwwUrls s = s from wwwGo_norm_id s hdot]
  rw [show subBold s = s from pairGo_norm_id '*' s hstar]
  rw [show subItalic s = s from itGo_norm_id s hstar]
  rw [show subStrike s = s from pairGo_norm_id '~' s htil]

theorem clean_text_fix_of_safe (s : List Char)
    (hstar : '*' ∉ s) (htil : '~' ∉ s) (hcol : ':' ∉ s) (hdot : '.' ∉ s) :
    clean_text (clean_text s) = clean_text s := by
  have e1 : clean_text s = pstrip (subSpaces (subNl s)) :=
    clean_text_restricted_eq s hstar htil hcol hdot
  have hmemC : ∀ a ∈ pstrip (subSpaces (subNl s)), a ∈ s ∨ a = '\n' ∨ a = ' ' := by
    intro a ha
    have h1 := mem_pstrip _ ha
    rcases mem_subSpaces _ h1 with h2 | h2
    · rcases mem_subNlGo _ false h2 with h3 | h3
      · exact Or.inl h3
      · exact Or.inr (Or.inl h3)
    · exact Or.inr (Or.inr h2)
  have hstarC : '*' ∉ pstrip (subSpaces (subNl s)) := by
    intro hm
    rcases hmemC _ hm with h' | h' | h'
    · exact hstar h'
    · exact absurd h' (by decide)
    · exact absurd h' (by decide)
  have htilC : '~' ∉ pstrip (subSpaces (subNl s)) := by
    intro hm
    rcases hmemC _ hm with h' | h' | h'
    · exact htil h'
    · exact absurd h' (by decide)
    · exact absurd h' (by decide)
  have hcolC : ':' ∉ pstrip (subSpaces (subNl s)) := by
    intro hm
    rcases hmemC _ hm with h' | h' | h'
    · exact hcol h'
    · exact absurd h' (by decide)
    · exact absurd h' (by decide)
  have hdotC : '.' ∉ pstrip (subSpaces (subNl s)) := by
    intro hm
    rcases hmemC _ hm with h' | h' | h'
    · exact hdot h'
    · exact absurd h' (by decide)
    · exact absurd h' (by decide)
  have hpatC : noNlPat (pstrip (subSpaces (subNl s))) :=
    noNlPat_pstrip _ (noNlPat_subSpaces _ (noNlPat_subNlGo s false))
  have hadjC : noAdjSp (pstrip (subSpaces (subNl s))) :=
    noAdjSp_pstrip _ (noAdjSp_subSpaces _)
  have htabC : '\t' ∉ pstrip (subSpaces (subNl s)) :=
    fun hm => noTab_subSpaces _ (mem_pstrip _ hm)
  rw [e1, clean_text_restricted_eq _ hstarC htilC hcolC hdotC]
  rw [show subNl (pstrip (subSpaces (subNl s))) = pstrip (subSpaces (subNl s)) from
    subNlGo_id _ false hpatC (fun hf => (Bool.false_ne_true hf).elim)]
  rw [subSpaces_id _ htabC hadjC]
  exact pstrip_idem _

/-! ## Claim theorems -/

/-- C1: the spec demands that the record `{body: "**removed**", title: "Help"}`
be rejected by `process_post` (the validator is supposed to match a plain-text
placeholder marker after normalization).  The code does the opposite: the body
normalizes to `"removed"`, which matches no entry of `DELETED_MARKERS` (the set
only holds bracketed and asterisk-wrapped forms), so `process_post` returns the
cleaned record instead of the rejection signal `None`.  This theorem evaluates
the code at the failing input. -/
theorem c1_process_post_accepts_markdown_removed :
    process_post ⟨none, some "Help".toList, some "**removed**".toList⟩
      = some ⟨"unknown".toList, "Help".toList, "removed".toList⟩ := by decide

/-- C2 counterexample: `clean_text` is not idempotent.  For the input
`"**a*b**"` one application yields `"*ab**"` (the bold pass fails, the italic
pass unwraps `*a*`), but a second application further rewrites it to `"ab*"`,
because the first pass exposed a fresh italic pattern. -/
theorem c2_clean_text_not_idempotent :
    ¬ (clean_text (clean_text "**a*b**".toList) = clean_text "**a*b**".toList) := by
  decide

/-- C2 (amended): the text normalizer is idempotent on every string free of
the substitution trigger characters `*`, `~` (emphasis markers), `:` (needed
by the `http(s)://` pattern) and `.` (needed by the `www.` pattern); on such
strings only the whitespace passes and the final strip act, and re-running
`clean_text` on the result is a no-op.  In general idempotence fails (see the
counterexample). -/
theorem c2_clean_text_idempotent_marker_free (s : List Char)
    (h : ∀ c ∈ s, c ≠ '*' ∧ c ≠ '~' ∧ c ≠ ':' ∧ c ≠ '.') :
    clean_text (clean_text s) = clean_text s :=
  clean_text_fix_of_safe s
    (fun hm => (h _ hm).1 rfl)
    (fun hm => (h _ hm).2.1 rfl)
    (fun hm => (h _ hm).2.2.1 rfl)
    (fun hm => (h _ hm).2.2.2 rfl)

/-- Witness for the amended C2 at the concrete string `"hello  world"`. -/
theorem c2_clean_text_idempotent_marker_free_witness :
    (∀ c ∈ "hello  world".toList, c ≠ '*' ∧ c ≠ '~' ∧ c ≠ ':' ∧ c ≠ '.') ∧
      clean_text (clean_text "hello  world".toList) = clean_text "hello  world".toList :=
  ⟨by decide, c2_clean_text_idempotent_marker_free _ (by decide)⟩

/-- C3: `deduplicate_posts` keeps exactly the first record of each title
fingerprint (it equals the keep-first reference function `dedupKeepFirst`,
which by construction keeps the head of the list and drops every later record
with the same fingerprint), the kept records form a sublist of the input (their
original relative order is preserved), and the dropped count satisfies
`length output + removed = length input`. -/
theorem c3_deduplicate_posts_keep_first_count (l : List CleanPost) :
    (deduplicate_posts l).1 = dedupKeepFirst l ∧
      List.Sublist (deduplicate_posts l).1 l ∧
      (deduplicate_posts l).1.length + (deduplicate_posts l).2 = l.length := by
  refine ⟨?_, dedupGo_sublist l [], dedupGo_count l []⟩
  have hfil : (l.filter fun q =>
      !(([] : List (List Char)).contains (normalize_title q.title))) = l :=
    List.filter_eq_self.mpr fun a _ => rfl
  calc (deduplicate_posts l).1
      = dedupKeepFirst (l.filter fun q =>
          !(([] : List (List Char)).contains (normalize_title q.title))) :=
        dedupGo_spec l []
    _ = dedupKeepFirst l := by rw [hfil]

/-- C4: for a two-record input, the second record is dropped (with
`removedCount = 1`) exactly when the two titles share a fingerprint under
`normalize_title` (lowercase, strip non-word/non-space characters, collapse
whitespace, trim); in particular `"My Day!"` and `"my day"` both have
fingerprint `"my day"`, so the second record is dropped and the count is 1. -/
theorem c4_dedup_by_title_fingerprint :
    (∀ p q : CleanPost,
      deduplicate_posts [p, q]
        = if normalize_title q.title = normalize_title p.title then ([p], 1)
          else ([p, q], 0)) ∧
    normalize_title "My Day!".toList = "my day".toList ∧
    normalize_title "my day".toList = "my day".toList ∧
    deduplicate_posts [⟨"a".toList, "My Day!".toList, "xxxxx".toList⟩,
        ⟨"b".toList, "my day".toList, "yyyyy".toList⟩]
      = ([⟨"a".toList, "My Day!".toList, "xxxxx".toList⟩], 1) := by
  refine ⟨?_, by decide, by decide, by decide⟩
  intro p q
  show dedupGo [] [p, q] = _
  rw [dedupGo_cons_neg [] p [q] rfl]
  by_cases h : normalize_title q.title = normalize_title p.title
  · rw [if_pos h]
    rw [dedupGo_cons_pos _ q []
      (by rw [List.contains_cons]; simp [h])]
    rfl
  · rw [if_neg h]
    rw [dedupGo_cons_neg _ q []
      (by rw [List.contains_cons]; simp [h])]
    rfl

/-- C5: with the default minimum of 5, `is_valid_post` accepts a record
exactly when the lowercased (stripped) body contains no placeholder marker as
a substring, the stripped body has length at least 5, and the stripped title
is nonempty; the boundary is inclusive: body `"hello"` (5 characters) is
accepted and `"hi"` (2 characters) is rejected. -/
theorem c5_is_valid_post_characterization :
    (∀ title body : List Char,
      (is_valid_post title body 5 = true ↔
        ((∀ m ∈ DELETED_MARKERS,
            ¬ ∃ u v, (pstrip body).map Char.toLower = u ++ m ++ v) ∧
          5 ≤ (pstrip body).length ∧ pstrip title ≠ []))) ∧
    is_valid_post "Help".toList "hi".toList 5 = false ∧
    is_valid_post "Help".toList "hello".toList 5 = true :=
  ⟨fun t b => is_valid_post_eq_true_iff t b 5, by decide, by decide⟩

/-- C6: for every nonempty record list, `calculate_stats` returns statistics
whose per-group counts sum to the total record count and whose per-group
`total_length` values sum to the total of all body lengths. -/
theorem c6_calculate_stats_totals (l : List CleanPost) (h : l ≠ []) :
    ∃ s, calculate_stats l = some s ∧
      s.total_posts = l.length ∧
      ((s.subreddit_stats.map fun e => e.2.count).sum = l.length) ∧
      ((s.subreddit_stats.map fun e => e.2.total_length).sum
        = (l.map fun p => p.body.length).sum) := by
  cases l with
  | nil => exact absurd rfl h
  | cons p ps =>
    obtain ⟨s, h1, h2, h3, h4, -⟩ := calculate_stats_eq p ps
    exact ⟨s, h1, h2, h3, h4⟩

/-- Witness for C6 at a concrete one-record list. -/
theorem c6_calculate_stats_totals_witness :
    (([⟨"a".toList, "t".toList, "hello".toList⟩] : List CleanPost) ≠ []) ∧
    ∃ s, calculate_stats [(⟨"a".toList, "t".toList, "hello".toList⟩ : CleanPost)]
          = some s ∧
        s.total_posts = [(⟨"a".toList, "t".toList, "hello".toList⟩ : CleanPost)].length ∧
        ((s.subreddit_stats.map fun e => e.2.count).sum
          = [(⟨"a".toList, "t".toList, "hello".toList⟩ : CleanPost)].length) ∧
        ((s.subreddit_stats.map fun e => e.2.total_length).sum
          = ([(⟨"a".toList, "t".toList, "hello".toList⟩ : CleanPost)].map
              fun p => p.body.length).sum) :=
  ⟨by decide, c6_calculate_stats_totals _ (by decide)⟩

/-- C7 counterexample: the claim as stated is false.  The record with title
`"Help"` and body `"hi"` fails validation only because of its body length
(no marker matches and the title is nonempty), yet the record that is
identical in every other field with the longer body `"x[deleted]xx"`
(length 12 ≥ 5) is still rejected, because the new body introduces a
placeholder marker. -/
theorem c7_validator_monotonicity_counterexample :
    is_valid_post "Help".toList "hi".toList 5 = false ∧
    (∀ m ∈ DELETED_MARKERS,
      isSubstr m ((pstrip "hi".toList).map Char.toLower) = false) ∧
    (pstrip "hi".toList).length < 5 ∧
    pstrip "Help".toList ≠ [] ∧
    5 ≤ (pstrip "x[deleted]xx".toList).length ∧
    is_valid_post "Help".toList "x[deleted]xx".toList 5 = false := by decide

/-- C7 (amended): a record failing validation only on body length (markers
absent, title nonempty, stripped body below the minimum) becomes valid when
its body is replaced by one whose stripped length reaches the minimum,
provided the new lowercased body still contains no placeholder marker --
that proviso is forced by the counterexample. -/
theorem c7_validator_monotone_amended (min_length : Nat) (title b b' : List Char)
    (_hfail : is_valid_post title b min_length = false)
    (_hmark : ∀ m ∈ DELETED_MARKERS,
      isSubstr m ((pstrip b).map Char.toLower) = false)
    (_hlen : (pstrip b).length < min_length)
    (htitle : pstrip title ≠ [])
    (hmark' : ∀ m ∈ DELETED_MARKERS,
      isSubstr m ((pstrip b').map Char.toLower) = false)
    (hlen' : min_length ≤ (pstrip b').length) :
    is_valid_post title b' min_length = true := by
  rw [is_valid_post_eq_true_iff]
  refine ⟨?_, hlen', htitle⟩
  intro m hm hex
  have hms := hmark' m hm
  rw [(isSubstr_iff m _).mpr hex] at hms
  exact absurd hms (by simp)

/-- Witness for the amended C7 at concrete records. -/
theorem c7_validator_monotone_amended_witness :
    (is_valid_post "Help".toList "hi".toList 5 = false ∧
      (pstrip "hi".toList).length < 5 ∧
      5 ≤ (pstrip "hello there".toList).length) ∧
    is_valid_post "Help".toList "hello there".toList 5 = true :=
  ⟨by decide,
    c7_validator_monotone_amended 5 "Help".toList "hi".toList "hello there".toList
      (by decide) (by decide) (by decide) (by decide) (by decide) (by decide)⟩

/-- C8 counterexample: `is_valid_post` is not exception-free on records whose
fields hold non-string values: with `body = 5` (an integer), Python evaluates
`post.get('body', '').strip()` on an `int` and raises `AttributeError` instead
of returning a boolean. -/
theorem c8_validator_raises_on_non_string :
    is_valid_post_dyn ⟨some (.str "Help".toList), some (.int 0)⟩ 5
      = .error .attributeError := rfl

/-- C8 (amended): `is_valid_post` is total and exception-free on every record
whose `body` and `title` fields are absent or hold strings; absent fields are
treated as the empty string before any check.  (The counterexample forces the
restriction to string-valued present fields.) -/
theorem c8_validator_total_amended (post : DynPost) (min_length : Nat)
    (ht : strOrAbsent post.title = true) (hb : strOrAbsent post.body = true) :
    ∃ b, is_valid_post_dyn post min_length = .ok b :=
  is_valid_post_dyn_ok post min_length ht hb

/-- Witness for the amended C8: an absent title and a string body. -/
theorem c8_validator_total_amended_witness :
    (strOrAbsent (none : Option PyVal) = true ∧
      strOrAbsent (some (.str "hello".toList)) = true) ∧
    ∃ b, is_valid_post_dyn ⟨none, some (.str "hello".toList)⟩ 5 = .ok b :=
  ⟨⟨rfl, rfl⟩, c8_validator_total_amended ⟨none, some (.str "hello".toList)⟩ 5 rfl rfl⟩

/-- C9: `calculate_stats` returns the empty result (`none`, modelling Python's
`{}`) on an empty input, and on any nonempty input every mean is taken over a
positive denominator: the total count is positive and every per-group count is
at least 1, so the mean computation is never performed on an empty set. -/
theorem c9_calculate_stats_empty_guard :
    calculate_stats [] = none ∧
    ∀ l : List CleanPost, l ≠ [] →
      ∃ s, calculate_stats l = some s ∧ 0 < s.total_posts ∧
        ∀ e ∈ s.subreddit_stats, 0 < e.2.count := by
  refine ⟨rfl, ?_⟩
  intro l h
  cases l with
  | nil => exact absurd rfl h
  | cons p ps =>
    obtain ⟨s, h1, h2, -, -, h5⟩ := calculate_stats_eq p ps
    refine ⟨s, h1, ?_, h5⟩
    rw [h2]
    exact Nat.succ_pos _

/-- Witness for C9's nonempty part at a concrete one-record list. -/
theorem c9_calculate_stats_empty_guard_witness :
    (([⟨"a".toList, "t".toList, "hello".toList⟩] : List CleanPost) ≠ []) ∧
    ∃ s, calculate_stats [(⟨"a".toList, "t".toList, "hello".toList⟩ : CleanPost)]
          = some s ∧ 0 < s.total_posts ∧
        ∀ e ∈ s.subreddit_stats, 0 < e.2.count :=
  ⟨by decide, c9_calculate_stats_empty_guard.2 _ (by decide)⟩

/-- C10: every title without word characters (only punctuation and whitespace)
normalizes to the empty fingerprint; consequently the deduplicated output of
any input list contains at most one record with an empty fingerprint, and in
the concrete two-record list with titles `"!!!"` and `"???"` only the first
record survives and the second counts as a duplicate. -/
theorem c10_punct_titles_collapse :
    (∀ t : List Char, (∀ c ∈ t, isWordChar c = false) → normalize_title t = []) ∧
    (∀ l : List CleanPost,
      ((deduplicate_posts l).1.countP
        fun q : CleanPost => normalize_title q.title == ([] : List Char)) ≤ 1) ∧
    deduplicate_posts [⟨"a".toList, "!!!".toList, "xxxxx".toList⟩,
        ⟨"b".toList, "???".toList, "yyyyy".toList⟩]
      = ([⟨"a".toList, "!!!".toList, "xxxxx".toList⟩], 1) := by
  refine ⟨normalize_title_eq_nil, ?_, by decide⟩
  intro l
  exact countP_le_one_of_map_nodup (fun q : CleanPost => normalize_title q.title) [] _
    (dedupGo_fp_fresh l []).1

/-- Witness for C10's universal part at the concrete title `"!!!"`. -/
theorem c10_punct_titles_collapse_witness :
    (∀ c ∈ "!!!".toList, isWordChar c = false) ∧ normalize_title "!!!".toList = [] :=
  ⟨by decide, c10_punct_titles_collapse.1 _ (by decide)⟩

end Scraper
